import Mathlib

/-
Verification of the DrQA pipeline orchestration (src/drqa/pipeline/drqa.py).

The development shallowly embeds the pure content of DrQA.process_batch and
its helpers:

* texts are lists of characters; tokens are lists of characters;
* the paragraph splitter DrQA._split_doc is embedded by splitNl (the regex
  split on one-or-more newline characters), pyStrip (Python str.strip) and
  splitDoc (the accumulate-and-flush loop), with GROUP_LENGTH as the G
  parameter (the class constant fixes G = 0);
* reader scores are rationals (a faithful total-order model of the float
  scores produced by the reader; NaN never arises from the softmax scores);
* the per-query priority queue of (score, ex_id, start, end) tuples kept by
  heapq is embedded by its ascending sorted list of elements, with heappush
  as ordered insertion and heappushpop as the replace-minimum-if-strictly-
  smaller operation, exactly the observable multiset semantics of heapq;
  Python compares these tuples lexicographically, which the linear order on
  ScoredSpan reproduces field by field;
* the external collaborators (ranker, document store, tokenizer, reader
  model) are inputs of the model, packaged in Env.
-/

namespace DrQAPipeline

/-- Whitespace characters removed by the Python str.strip call in
DrQA._split_doc (the ASCII whitespace class). -/
def isPySpace (c : Char) : Bool :=
  c = ' ' || c = '\t' || c = '\n' || c = '\x0d' || c = '\x0b' || c = '\x0c'

/-- Python str.strip(): drop leading and trailing whitespace. -/
def pyStrip (l : List Char) : List Char :=
  ((l.dropWhile isPySpace).reverse.dropWhile isPySpace).reverse

/-- Embedding of regex.split applied with pattern backslash-n-plus in
DrQA._split_doc: the segments of the text lying between maximal runs of
one or more newline characters.  Mirrors Python in returning empty segments
at the borders (for example a leading newline yields a leading empty
segment). -/
def splitNl : List Char → List (List Char)
  | [] => [[]]
  | c :: rest =>
    let r := splitNl rest
    if c = '\n' then
      match rest with
      | '\n' :: _ => r
      | _ => [] :: r
    else
      match r with
      | [] => [[c]]
      | s :: ss => (c :: s) :: ss

/-- Loop body of DrQA._split_doc: fold the stripped nonempty segments,
flushing the accumulated buffer (joined by single spaces) whenever adding
the next segment would push the accumulated length over G while the buffer
is nonempty, and flushing the remaining buffer at the end. -/
def splitDocAux (G : ℕ) : List (List Char) → List (List Char) → ℕ → List (List Char)
  | [], curr, _ => if curr.isEmpty then [] else [List.intercalate [' '] curr]
  | seg :: rest, curr, currLen =>
    let s := pyStrip seg
    if s.length = 0 then
      splitDocAux G rest curr currLen
    else if 0 < curr.length ∧ G < currLen + s.length then
      List.intercalate [' '] curr :: splitDocAux G rest [s] s.length
    else
      splitDocAux G rest (curr ++ [s]) (currLen + s.length)

/-- Embedding of DrQA._split_doc with target length G (self.GROUP_LENGTH,
which the class fixes to 0). -/
def splitDoc (G : ℕ) (doc : List Char) : List (List Char) :=
  splitDocAux G (splitNl doc) [] 0

/-- Modelled from the spec: the paragraph decomposition asserted by the
specification, which says paragraphs are the segments between blank-line
boundaries (a blank line being two or more consecutive newline characters),
whitespace-trimmed with empty paragraphs dropped.  This is the comparison
definition for the splitter claim; the source splits on single newlines
instead. -/
def splitBlank : List Char → List (List Char)
  | [] => [[]]
  | '\n' :: '\n' :: rest =>
    [] :: splitBlank (rest.dropWhile (fun c => c = '\n'))
  | c :: rest =>
    match splitBlank rest with
    | [] => [[c]]
    | s :: ss => (c :: s) :: ss
termination_by l => l.length
decreasing_by
  · simp only [List.length_cons]
    have := (List.dropWhile_sublist (fun c => c = '\n') (l := rest)).length_le
    omega
  · simp [List.length_cons]

/-- Modelled from the spec: one passage per non-empty blank-line-delimited
paragraph, trimmed, in original order. -/
def paragraphsBlankLineSpec (doc : List Char) : List (List Char) :=
  ((splitBlank doc).map pyStrip).filter (fun s => !s.isEmpty)

/-- Per-paragraph reading of the actual splitter output at G = 0: the
stripped nonempty newline-run segments, in order. -/
def newlineParagraphs (doc : List Char) : List (List Char) :=
  ((splitNl doc).map pyStrip).filter (fun s => !s.isEmpty)

/-- Raw tuple pushed onto a per-query heap at lines 321-327 of drqa.py:
(score[i][0], ex_ids[i], s[i][0], e[i][0]) with ex_ids[i] = (qidx, rel_didx,
sidx).  The score is the float confidence (modelled as a rational), the three
indices are the composite key, and startTok/endTok are the raw candidate
token indices returned by the reader (Python ints, modelled as integers). -/
structure ScoredSpan where
  score : ℚ
  qidx : ℕ
  relDidx : ℕ
  sidx : ℕ
  startTok : ℤ
  endTok : ℤ
deriving DecidableEq

/-- Lexicographic comparison key: Python compares the heap tuples
lexicographically, component by component, nested tuples lexicographically
again. -/
def ScoredSpan.key (x : ScoredSpan) :
    Lex (ℚ × Lex (ℕ × Lex (ℕ × Lex (ℕ × Lex (ℤ × ℤ))))) :=
  toLex (x.score, toLex (x.qidx, toLex (x.relDidx,
    toLex (x.sidx, toLex (x.startTok, x.endTok)))))

/-- Order on heap entries = the Python tuple order. -/
instance : LinearOrder ScoredSpan :=
  LinearOrder.lift' ScoredSpan.key (by
    intro a b h
    cases a
    cases b
    simp only [ScoredSpan.key, toLex_inj, Prod.mk.injEq] at h
    obtain ⟨h1, h2, h3, h4, h5, h6⟩ := h
    simp_all)

/-- Composite key of a heap entry. -/
def ScoredSpan.ckey (x : ScoredSpan) : ℕ × ℕ × ℕ := (x.qidx, x.relDidx, x.sidx)

/-- One aggregation step from lines 323-327 of drqa.py: heappush while the
queue holds fewer than top_n entries, otherwise heappushpop (push the new
item, then pop the minimum; equivalently, replace the minimum exactly when
the minimum compares strictly below the new item, else discard the item).
The heapq priority queue is embedded by its ascending sorted list of
elements: heappush is ordered insertion and the popped element is the head. -/
def offer (topn : ℕ) (q : List ScoredSpan) (x : ScoredSpan) : List ScoredSpan :=
  if q.length < topn then List.orderedInsert (· ≤ ·) x q
  else
    match q with
    | [] => []
    | h :: t => if h < x then List.orderedInsert (· ≤ ·) x t else h :: t

/-- Aggregation of a stream of scored spans into one query queue. -/
def runQueue (topn : ℕ) (xs : List ScoredSpan) : List ScoredSpan :=
  xs.foldl (offer topn) []

/-- Modelled from the spec: the aggregation step as the specification words
it — replace the current minimum exactly when the new SCORE exceeds the
minimum score, discard otherwise.  Comparison definition for the bounded
aggregation claim; the source compares whole tuples, not scores. -/
def offerSpec (topn : ℕ) (q : List ScoredSpan) (x : ScoredSpan) : List ScoredSpan :=
  if q.length < topn then List.orderedInsert (· ≤ ·) x q
  else
    match q with
    | [] => []
    | h :: t => if h.score < x.score then List.orderedInsert (· ≤ ·) x t else h :: t

/-- Modelled from the spec: aggregation of a stream with the score-only
replacement rule. -/
def runQueueSpec (topn : ℕ) (xs : List ScoredSpan) : List ScoredSpan :=
  xs.foldl (offerSpec topn) []

/-- Last n elements of a list (the n greatest of an ascending sorted list). -/
def takeLast (n : ℕ) (l : List ScoredSpan) : List ScoredSpan :=
  l.drop (l.length - n)

/-- Brute-force reference for top-n selection: fully sort descending, keep
the first n. -/
def bruteTopN (topn : ℕ) (xs : List ScoredSpan) : List ScoredSpan :=
  ((List.insertionSort (· ≤ ·) xs).reverse).take topn

/-- Tokens are modelled as raw character lists. -/
abbrev Tok := List Char

/-- Example record built at lines 270-277 of drqa.py (transformer variant):
composite id plus the question and passage token sequences. -/
structure Example where
  qidx : ℕ
  relDidx : ℕ
  sidx : ℕ
  question : List Tok
  document : List Tok
deriving DecidableEq

/-- Composite key of an example. -/
def Example.ckey (ex : Example) : ℕ × ℕ × ℕ := (ex.qidx, ex.relDidx, ex.sidx)

/-- External collaborators of process_batch, supplied as inputs of the
model: allDocids and allDocScores are the ranker response (the zip of
ranked at line 238), docText is the document store fetch, tok the
tokenizer, and read the reader model, returning per row the three aligned
candidate lists (scores, start indices, end indices) from which line 322
takes the top candidate.  The model instantiates the joint-subword
(reader_model == transformer) variant, whose span decoding uses only list
operations present in src. -/
structure Env where
  allDocids : List (List ℕ)
  allDocScores : List (List ℚ)
  docText : ℕ → List Char
  tok : List Char → List Tok
  read : Example → List ℚ × List ℤ × List ℤ

/-- Deduplicated flat document id list of line 242.  Python enumerates a
set, whose iteration order is unspecified; the model fixes one canonical
enumeration without duplicates (List.dedup), and every theorem below
depends only on the underlying set of ids. -/
def flatDocidsOf (env : Env) : List ℕ := env.allDocids.flatten.dedup

/-- Argument list of the processes.map(fetch_text, flat_docids) call at
line 244: one fetch invocation per element. -/
def fetchCallsOf (env : Env) : List ℕ := flatDocidsOf env

/-- Document texts as returned by the store for the deduplicated ids. -/
def docTextsOf (env : Env) : List (List Char) := (flatDocidsOf env).map env.docText

/-- Lines 248-255 of drqa.py: split every fetched document, append the
splits to one flat passage list, and record per document the half-open
range of global passage indices it owns. -/
def buildSplits (G : ℕ) (texts : List (List Char)) :
    List (List Char) × List (ℕ × ℕ) :=
  texts.foldl (fun acc text =>
    let splits := splitDoc G text
    (acc.1 ++ splits, acc.2 ++ [(acc.1.length, acc.1.length + splits.length)]))
    ([], [])

/-- Reference shape of the recorded ranges: successive half-open intervals
starting at a given offset with the given lengths. -/
def rangesFrom : ℕ → List ℕ → List (ℕ × ℕ)
  | _, [] => []
  | off, len :: rest => (off, off + len) :: rangesFrom (off + len) rest

/-- Flat passage list (flat_splits) of the batch. -/
def flatSplitsOf (env : Env) : List (List Char) :=
  (buildSplits 0 (docTextsOf env)).1

/-- Per-document passage ranges (didx2sidx) of the batch. -/
def didx2sidxOf (env : Env) : List (ℕ × ℕ) :=
  (buildSplits 0 (docTextsOf env)).2

/-- Argument list of the passage tokenization call
processes.map_async(tokenize_text, flat_splits) at line 259: one tokenizer
invocation per flat passage position. -/
def passageTokCallsOf (env : Env) : List (List Char) := flatSplitsOf env

/-- Question annotations (q_tokens). -/
def qTokensOf (env : Env) (queries : List (List Char)) : List (List Tok) :=
  queries.map env.tok

/-- Passage annotations (s_tokens). -/
def sTokensOf (env : Env) : List (List Tok) :=
  (flatSplitsOf env).map env.tok

/-- One candidate example row of lines 270-277: retained only when both the
question and the passage annotations are non-empty. -/
def exampleAt (env : Env) (queries : List (List Char)) (qidx relDidx sidx : ℕ) :
    Option Example :=
  if 0 < ((qTokensOf env queries).getD qidx []).length ∧
      0 < ((sTokensOf env).getD sidx []).length then
    some ⟨qidx, relDidx, sidx, (qTokensOf env queries).getD qidx [],
      (sTokensOf env).getD sidx []⟩
  else none

/-- Example construction loop of lines 265-289: for every query index, for
every ranked document of that query (rel_didx enumerates the rank), look up
the passage range owned by the document (did2didx composed with didx2sidx)
and emit one example per global passage index in the range. -/
def examplesOf (env : Env) (queries : List (List Char)) : List Example :=
  (List.range queries.length).flatMap fun qidx =>
    ((env.allDocids.getD qidx []).enum).flatMap fun rd =>
      let r := (didx2sidxOf env).getD ((flatDocidsOf env).indexOf rd.2) (0, 0)
      (List.range' r.1 (r.2 - r.1)).filterMap fun sidx =>
        exampleAt env queries qidx rd.1 sidx

/-- Per-row result collection of lines 316-327.  Modelled from the spec for
the batching layer: ReaderDataset, SortedBatchSampler and the torch
DataLoader (repository files outside src/) deliver every example exactly
once, length-bucketed with shuffling disabled; because aggregation is
insensitive to arrival order (the permutation theorem below), the model
walks the rows in example order.  A row whose candidate score list is empty
is skipped; otherwise the top candidate (index 0 of each list) forms the
heap tuple. -/
def resultsOf (env : Env) (examples : List Example) : List ScoredSpan :=
  examples.filterMap fun ex =>
    if (env.read ex).1.isEmpty then none
    else some ⟨(env.read ex).1.headD 0, ex.qidx, ex.relDidx, ex.sidx,
      (env.read ex).2.1.headD 0, (env.read ex).2.2.headD 0⟩

/-- Scored spans of the whole batch. -/
def scoredOf (env : Env) (queries : List (List Char)) : List ScoredSpan :=
  resultsOf env (examplesOf env queries)

/-- Lines 315-327: one queue per query, filled by offering every incoming
scored span to the queue of its owning query. -/
def fillQueues (nq topn : ℕ) (items : List ScoredSpan) : List (List ScoredSpan) :=
  items.foldl
    (fun queues it => queues.set it.qidx (offer topn (queues.getD it.qidx []) it))
    (List.replicate nq [])

/-- Final queues of the batch. -/
def queuesOf (env : Env) (queries : List (List Char)) (topn : ℕ) :
    List (List ScoredSpan) :=
  fillQueues queries.length topn (scoredOf env queries)

/-- Separator offset of line 354: question length plus two special
positions. -/
def sepOffsetOf (L : ℕ) : ℕ := L + 2

/-- Joint-subword index adjustment of lines 356-357: subtract the separator
offset and clamp at zero (max(0, i - sep_offset) on Python ints). -/
def adjustIndex (L : ℕ) (i : ℤ) : ℤ := max 0 (i - sepOffsetOf L)

/-- Final output unit assembled at lines 359-364. -/
structure Prediction where
  docId : ℕ
  span : List Char
  docScore : ℚ
  spanScore : ℚ
deriving DecidableEq

/-- Prediction assembly for one popped heap tuple (transformer branch,
lines 353-364): clamp both raw indices, slice the passage token list from
s to e inclusive, and join with single spaces. -/
def mkPrediction (env : Env) (queries : List (List Char)) (it : ScoredSpan) :
    Prediction :=
  let L := ((qTokensOf env queries).getD it.qidx []).length
  let s := (adjustIndex L it.startTok).toNat
  let e := (adjustIndex L it.endTok).toNat
  let toks := (sTokensOf env).getD it.sidx []
  { docId := (env.allDocids.getD it.qidx []).getD it.relDidx 0
    span := List.intercalate [' '] ((toks.drop s).take (e + 1 - s))
    docScore := (env.allDocScores.getD it.qidx []).getD it.relDidx 0
    spanScore := it.score }

/-- Finalization loop of lines 336-375: pop the minimum repeatedly (the
head of the ascending queue), build a prediction per popped tuple, and
reverse the collected list (predictions[-1::-1]). -/
def drainQueue (env : Env) (queries : List (List Char)) (q : List ScoredSpan) :
    List Prediction :=
  (q.map (mkPrediction env queries)).reverse

/-- Full pure output of process_batch: one prediction list per query. -/
def processBatchOut (env : Env) (queries : List (List Char)) (topn : ℕ) :
    List (List Prediction) :=
  (queuesOf env queries topn).map (drainQueue env queries)

/-- Error kinds named by the specification. -/
inductive PipeError where
  | retrievalError
  | notFoundError
  | annotationError
  | inferenceError
  | configurationError
deriving DecidableEq

/-- process_batch as a fallible call.  The source contains no validation of
top_n or n_docs and raises none of the specification error kinds itself
(collaborator failures are outside the embedded region), so the embedded
call always succeeds with the pure output. -/
def processBatchE (env : Env) (queries : List (List Char)) (topn : ℕ) :
    Except PipeError (List (List Prediction)) :=
  .ok (processBatchOut env queries topn)

/-- process: the single-query entry point wraps a batch of size one and
returns its first element. -/
def processOne (env : Env) (query : List Char) (topn : ℕ) : List Prediction :=
  (processBatchOut env [query] topn).getD 0 []

/-- Concrete scored spans used by witness and counterexample theorems:
spanA and spanB share the score and differ only in the passage index. -/
def spanA : ScoredSpan := ⟨1, 0, 0, 0, 0, 0⟩

/-- Second span with the same score as spanA but a larger composite key. -/
def spanB : ScoredSpan := ⟨1, 0, 0, 1, 0, 0⟩

/-- Span with a strictly larger score. -/
def spanC : ScoredSpan := ⟨2, 1, 0, 2, 3, 4⟩

/-- Span with the largest score of the demonstration set. -/
def spanD : ScoredSpan := ⟨3, 0, 1, 3, 1, 2⟩

/-- Demonstration environment: two queries whose ranked document lists
overlap (documents 10 and 11 are both ranked by both queries). -/
def demoEnv : Env where
  allDocids := [[10, 11], [11, 10]]
  allDocScores := [[5, 4], [6, 3]]
  docText := fun d => if d = 10 then ['a', '\n', 'b'] else ['c']
  tok := fun t => [t]
  read := fun ex => ([(ex.sidx : ℚ) + 1], [(ex.sidx : ℤ)], [(ex.sidx : ℤ) + 1])

/-- Demonstration environment whose reader finds no candidate span on any
row. -/
def demoEnvEmpty : Env where
  allDocids := [[10]]
  allDocScores := [[5]]
  docText := fun _ => ['a']
  tok := fun t => [t]
  read := fun _ => ([], [], [])

/-- Demonstration query batch of size two. -/
def demoQueries : List (List Char) := [['q'], ['r']]

theorem splitDocAux_zero_single (segs : List (List Char)) :
    ∀ p : List Char, p ≠ [] →
      splitDocAux 0 segs [p] p.length =
        p :: (((segs.map pyStrip).filter (fun s => !s.isEmpty))) := by
  induction segs with
  | nil =>
    intro p hp
    simp [splitDocAux, List.isEmpty, List.intercalate]
  | cons seg rest ih =>
    intro p hp
    by_cases hs : (pyStrip seg).length = 0
    · have hempty : (pyStrip seg).isEmpty = true := by
        cases h : pyStrip seg with
        | nil => rfl
        | cons a t => rw [h] at hs; simp at hs
      simp only [splitDocAux, hs, if_pos rfl]
      rw [ih p hp]
      simp [hempty]
    · have hplen : 0 < p.length := by
        cases p with
        | nil => exact absurd rfl hp
        | cons a t => simp
      have hcond : 0 < ([p] : List (List Char)).length ∧ 0 < p.length + (pyStrip seg).length := by
        constructor
        · simp
        · omega
      have hsne : pyStrip seg ≠ [] := by
        intro h; rw [h] at hs; simp at hs
      have hsnotempty : (pyStrip seg).isEmpty = false := by
        cases h : pyStrip seg with
        | nil => exact absurd h hsne
        | cons a t => rfl
      simp only [splitDocAux]
      rw [if_neg hs, if_pos hcond, ih (pyStrip seg) hsne]
      simp [hsnotempty, List.intercalate]

theorem splitDocAux_zero_nil (segs : List (List Char)) :
    splitDocAux 0 segs [] 0 = (segs.map pyStrip).filter (fun s => !s.isEmpty) := by
  induction segs with
  | nil => simp [splitDocAux]
  | cons seg rest ih =>
    by_cases hs : (pyStrip seg).length = 0
    · have hempty : (pyStrip seg).isEmpty = true := by
        cases h : pyStrip seg with
        | nil => rfl
        | cons a t => rw [h] at hs; simp at hs
      simp only [splitDocAux, hs, if_pos rfl]
      rw [ih]
      simp [hempty]
    · have hsne : pyStrip seg ≠ [] := by
        intro h; rw [h] at hs; simp at hs
      have hsnotempty : (pyStrip seg).isEmpty = false := by
        cases h : pyStrip seg with
        | nil => exact absurd h hsne
        | cons a t => rfl
      simp only [splitDocAux]
      rw [if_neg hs, if_neg (by simp), List.nil_append, Nat.zero_add,
        splitDocAux_zero_single rest (pyStrip seg) hsne]
      simp [hsnotempty]

theorem orderedInsert_append_of_forall_not_le (x : ScoredSpan) (A B : List ScoredSpan)
    (hA : ∀ a ∈ A, ¬ x ≤ a) :
    List.orderedInsert (· ≤ ·) x (A ++ B) = A ++ List.orderedInsert (· ≤ ·) x B := by
  induction A with
  | nil => simp
  | cons a A ih =>
    have hxa : ¬ x ≤ a := hA a (by simp)
    simp only [List.cons_append, List.orderedInsert, List.append_eq, if_neg hxa]
    rw [ih (fun b hb => hA b (by simp [hb]))]

theorem orderedInsert_append_of_forall_le (x : ScoredSpan) (A B : List ScoredSpan)
    (hB : ∀ b ∈ B, x ≤ b) :
    List.orderedInsert (· ≤ ·) x (A ++ B) = List.orderedInsert (· ≤ ·) x A ++ B := by
  induction A with
  | nil =>
    cases B with
    | nil => simp
    | cons b B2 =>
      simp only [List.nil_append, List.orderedInsert, if_pos (hB b (by simp))]
      rfl
  | cons a A ih =>
    by_cases hxa : x ≤ a
    · simp only [List.cons_append, List.orderedInsert, if_pos hxa]
      rfl
    · simp only [List.cons_append, List.orderedInsert, List.append_eq, if_neg hxa]
      rw [ih]

theorem offer_of_small (topn : ℕ) (q : List ScoredSpan) (x : ScoredSpan)
    (hlen : q.length < topn) :
    offer topn q x = List.orderedInsert (· ≤ ·) x q := by
  unfold offer
  rw [if_pos hlen]

theorem offer_of_full (topn : ℕ) (hd : ScoredSpan) (t : List ScoredSpan) (x : ScoredSpan)
    (hlen : ¬ (hd :: t).length < topn) :
    offer topn (hd :: t) x = if hd < x then List.orderedInsert (· ≤ ·) x t else hd :: t := by
  unfold offer
  rw [if_neg hlen]

theorem offer_takeLast (topn : ℕ) (s : List ScoredSpan) (x : ScoredSpan)
    (hs : s.Sorted (· ≤ ·)) :
    offer topn (takeLast topn s) x = takeLast topn (List.orderedInsert (· ≤ ·) x s) := by
  have hlen' : (List.orderedInsert (· ≤ ·) x s).length = s.length + 1 :=
    List.orderedInsert_length _ _ _
  by_cases hlen : s.length < topn
  · have h1 : s.length - topn = 0 := by omega
    have h3 : (List.orderedInsert (· ≤ ·) x s).length - topn = 0 := by omega
    unfold takeLast
    rw [h1, h3, List.drop_zero, List.drop_zero]
    unfold offer
    rw [if_pos hlen]
  · push_neg at hlen
    rcases Nat.eq_zero_or_pos topn with htop | htop
    · subst htop
      unfold takeLast
      simp only [Nat.sub_zero, List.drop_length]
      rfl
    · have hsplit : s.take (s.length - topn) ++ s.drop (s.length - topn) = s :=
        List.take_append_drop _ s
      have hAlen : (s.take (s.length - topn)).length = s.length - topn := by
        rw [List.length_take]
        omega
      have htlen : (s.drop (s.length - topn)).length = topn := by
        rw [List.length_drop]
        omega
      cases htt : s.drop (s.length - topn) with
      | nil =>
        rw [htt] at htlen
        simp at htlen
        omega
      | cons h t2 =>
        have hsorted : List.Sorted (· ≤ ·) (s.take (s.length - topn) ++ (h :: t2)) := by
          rw [← htt, hsplit]
          exact hs
        obtain ⟨hsA, hsT, hcross⟩ := List.pairwise_append.mp hsorted
        have hfull : ¬ (h :: t2).length < topn := by
          rw [← htt, htlen]
          omega
        unfold takeLast
        rw [htt, offer_of_full topn h t2 x hfull]
        by_cases hx : h < x
        · have hnotA : ∀ a ∈ s.take (s.length - topn), ¬ x ≤ a := by
            intro a ha
            have hah : a ≤ h := hcross a ha h (by simp)
            exact not_le_of_lt (lt_of_le_of_lt hah hx)
          have hnoth : ¬ x ≤ h := not_le_of_lt hx
          have hrw : List.orderedInsert (· ≤ ·) x s =
              (s.take (s.length - topn) ++ [h]) ++ List.orderedInsert (· ≤ ·) x t2 := by
            conv_lhs => rw [← hsplit, htt]
            rw [orderedInsert_append_of_forall_not_le x _ _ hnotA]
            simp only [List.orderedInsert, if_neg hnoth]
            simp
          have hidx : (List.orderedInsert (· ≤ ·) x s).length - topn =
              (s.take (s.length - topn) ++ [h]).length := by
            rw [hlen']
            simp [hAlen]
            omega
          rw [if_pos hx, hidx, hrw, List.drop_left]
        · have hxh : x ≤ h := le_of_not_lt hx
          have hleT : ∀ b ∈ (h :: t2), x ≤ b := by
            intro b hb
            rcases List.mem_cons.mp hb with rfl | hb2
            · exact hxh
            · exact le_trans hxh (List.rel_of_sorted_cons hsT b hb2)
          have hrw : List.orderedInsert (· ≤ ·) x s =
              List.orderedInsert (· ≤ ·) x (s.take (s.length - topn)) ++ (h :: t2) := by
            conv_lhs => rw [← hsplit, htt]
            exact orderedInsert_append_of_forall_le x _ _ hleT
          have hidx : (List.orderedInsert (· ≤ ·) x s).length - topn =
              (List.orderedInsert (· ≤ ·) x (s.take (s.length - topn))).length := by
            rw [hlen', List.orderedInsert_length, hAlen]
            omega
          rw [if_neg hx, hidx, hrw, List.drop_left]

theorem insertionSort_append_singleton (xs : List ScoredSpan) (x : ScoredSpan) :
    List.insertionSort (· ≤ ·) (xs ++ [x]) =
      List.orderedInsert (· ≤ ·) x (List.insertionSort (· ≤ ·) xs) := by
  refine List.eq_of_perm_of_sorted (r := (· ≤ ·)) ?_ (List.sorted_insertionSort _ _)
    ((List.sorted_insertionSort (· ≤ ·) xs).orderedInsert x _)
  exact (List.perm_insertionSort _ _).trans
    ((List.perm_append_singleton x xs).trans
      (((List.perm_insertionSort _ xs).symm.cons x).trans
        (List.perm_orderedInsert _ x _).symm))

theorem runQueue_append_singleton (topn : ℕ) (xs : List ScoredSpan) (x : ScoredSpan) :
    runQueue topn (xs ++ [x]) = offer topn (runQueue topn xs) x := by
  unfold runQueue
  rw [List.foldl_append]
  rfl

theorem runQueue_eq_takeLast (topn : ℕ) (xs : List ScoredSpan) :
    runQueue topn xs = takeLast topn (List.insertionSort (· ≤ ·) xs) := by
  induction xs using List.reverseRecOn with
  | nil => simp [runQueue, takeLast]
  | append_singleton xs x ih =>
    rw [runQueue_append_singleton, ih,
      offer_takeLast topn _ x (List.sorted_insertionSort _ _),
      insertionSort_append_singleton]

theorem runQueue_length (topn : ℕ) (xs : List ScoredSpan) :
    (runQueue topn xs).length = min topn xs.length := by
  rw [runQueue_eq_takeLast]
  unfold takeLast
  rw [List.length_drop, List.length_insertionSort]
  omega

theorem runQueue_sorted (topn : ℕ) (xs : List ScoredSpan) :
    (runQueue topn xs).Sorted (· ≤ ·) := by
  rw [runQueue_eq_takeLast]
  exact List.Pairwise.sublist (List.drop_sublist _ _) (List.sorted_insertionSort _ _)

theorem runQueue_reverse_eq_bruteTopN (topn : ℕ) (xs : List ScoredSpan) :
    (runQueue topn xs).reverse = bruteTopN topn xs := by
  rw [runQueue_eq_takeLast]
  unfold takeLast bruteTopN
  rw [List.reverse_drop]
  have hlen : (List.insertionSort (· ≤ ·) xs).length = xs.length :=
    List.length_insertionSort _ _
  rcases le_or_lt topn xs.length with hle | hlt
  · have h2 : (List.insertionSort (· ≤ ·) xs).length -
        ((List.insertionSort (· ≤ ·) xs).length - topn) = topn := by omega
    rw [h2]
  · have h1 : (List.insertionSort (· ≤ ·) xs).length -
        ((List.insertionSort (· ≤ ·) xs).length - topn) =
        (List.insertionSort (· ≤ ·) xs).length := by omega
    rw [h1]
    rw [List.take_of_length_le (by rw [List.length_reverse]),
      List.take_of_length_le (by rw [List.length_reverse]; omega)]

theorem insertionSort_eq_of_perm {xs ys : List ScoredSpan} (h : xs.Perm ys) :
    List.insertionSort (· ≤ ·) xs = List.insertionSort (· ≤ ·) ys :=
  List.eq_of_perm_of_sorted
    ((List.perm_insertionSort _ xs).trans (h.trans (List.perm_insertionSort _ ys).symm))
    (List.sorted_insertionSort _ _) (List.sorted_insertionSort _ _)

theorem runQueue_perm_invariant (topn : ℕ) {xs ys : List ScoredSpan} (h : xs.Perm ys) :
    runQueue topn xs = runQueue topn ys := by
  rw [runQueue_eq_takeLast, runQueue_eq_takeLast, insertionSort_eq_of_perm h]

theorem ScoredSpan.le_iff_key {a b : ScoredSpan} : a ≤ b ↔ a.key ≤ b.key := Iff.rfl

theorem ScoredSpan.lt_iff_key {a b : ScoredSpan} : a < b ↔ a.key < b.key := Iff.rfl

theorem ScoredSpan.score_le_of_le {a b : ScoredSpan} (h : a ≤ b) :
    a.score ≤ b.score := by
  rcases (Prod.Lex.le_iff _ _).mp (ScoredSpan.le_iff_key.mp h) with h1 | ⟨h1, _⟩
  · exact le_of_lt h1
  · exact le_of_eq h1

theorem ScoredSpan.lt_of_score_lt {a b : ScoredSpan} (h : a.score < b.score) :
    a < b :=
  ScoredSpan.lt_iff_key.mpr ((Prod.Lex.lt_iff _ _).mpr (Or.inl h))

/-- C1 counterexample: at equal scores the code does not discard the new
span.  With top_n = 1, offering spanA and then spanB (same score 1, larger
composite key) leaves spanB in the structure, while the claimed
insert-only-if-score-exceeds-minimum rule (runQueueSpec, worded from the
spec) keeps spanA; so the claim as stated is false on this input. -/
theorem C1_bounded_aggregation_counterexample :
    runQueue 1 [spanA, spanB] = [spanB] ∧
    runQueueSpec 1 [spanA, spanB] = [spanA] ∧
    runQueue 1 [spanA, spanB] ≠ runQueueSpec 1 [spanA, spanB] := by
  refine ⟨?_, ?_, ?_⟩ <;> decide

/-- C1 (amended): after any sequence of offers the structure holds exactly
min top_n (number offered) entries, and drained in descending order it
equals the brute-force descending full sort truncated to top_n — the top_n
greatest offered spans under the full lexicographic tuple order (hence the
top_n highest-scoring up to resolution of exact score ties by composite
key and token indices).  An incoming span is inserted while the structure
is below capacity; at capacity it replaces the minimum whenever its score
strictly exceeds the minimum score and is discarded whenever its score is
strictly below (ties are settled by the remaining tuple components, as the
counterexample shows). -/
theorem C1_bounded_aggregation (topn : ℕ) (xs : List ScoredSpan) :
    (runQueue topn xs).length = min topn xs.length ∧
    (runQueue topn xs).reverse = bruteTopN topn xs ∧
    (∀ q x, q.length < topn → offer topn q x = List.orderedInsert (· ≤ ·) x q) ∧
    (∀ (hd : ScoredSpan) t x, (hd :: t).length = topn → hd.score < x.score →
      offer topn (hd :: t) x = List.orderedInsert (· ≤ ·) x t) ∧
    (∀ (hd : ScoredSpan) t x, (hd :: t).length = topn → x.score < hd.score →
      offer topn (hd :: t) x = hd :: t) := by
  refine ⟨runQueue_length topn xs, runQueue_reverse_eq_bruteTopN topn xs, ?_, ?_, ?_⟩
  · intro q x hlen
    exact offer_of_small topn q x hlen
  · intro hd t x hlen hsc
    rw [offer_of_full topn hd t x (by omega), if_pos (ScoredSpan.lt_of_score_lt hsc)]
  · intro hd t x hlen hsc
    rw [offer_of_full topn hd t x (by omega),
      if_neg (lt_asymm (ScoredSpan.lt_of_score_lt hsc))]

/-- C1 witness: the amended theorem applied at concrete inputs (a full
structure of capacity one, an incoming span of strictly larger score). -/
theorem C1_bounded_aggregation_witness :
    offer 1 [spanA] spanC = List.orderedInsert (· ≤ ·) spanC [] :=
  (C1_bounded_aggregation 1 []).2.2.2.1 spanA [] spanC (by decide) (by decide)

/-- C4: feeding two permutations of the same multiset of scored spans to
the aggregation yields literally identical final queues, hence identical
final ranked Prediction lists (in particular identical up to reordering
among equal scores, as claimed). -/
theorem C4_order_insensitive (topn : ℕ) (xs ys : List ScoredSpan) (h : xs.Perm ys)
    (env : Env) (queries : List (List Char)) :
    runQueue topn xs = runQueue topn ys ∧
    drainQueue env queries (runQueue topn xs) =
      drainQueue env queries (runQueue topn ys) := by
  have hq := runQueue_perm_invariant topn h
  exact ⟨hq, by rw [hq]⟩

/-- C4 witness: the permutation theorem applied to a concrete two-element
swap. -/
theorem C4_order_insensitive_witness :
    runQueue 1 [spanA, spanC] = runQueue 1 [spanC, spanA] :=
  (C4_order_insensitive 1 [spanA, spanC] [spanC, spanA]
    (List.Perm.swap spanC spanA []) demoEnv demoQueries).1

/-- C5 counterexample: the claim reads paragraphs as blank-line delimited
segments; the code splits on every newline run.  On the two-line document
a-newline-b (no blank line) the code emits two passages where the claimed
decomposition has exactly one non-empty paragraph, so the claim as stated
fails. -/
theorem C5_splitter_counterexample :
    splitDoc 0 ['a', '\n', 'b'] = [['a'], ['b']] ∧
    paragraphsBlankLineSpec ['a', '\n', 'b'] = [['a', '\n', 'b']] ∧
    splitDoc 0 ['a', '\n', 'b'] ≠ paragraphsBlankLineSpec ['a', '\n', 'b'] := by
  have hblank : paragraphsBlankLineSpec ['a', '\n', 'b'] = [['a', '\n', 'b']] := by
    simp [paragraphsBlankLineSpec, splitBlank, pyStrip, isPySpace]
  refine ⟨by decide, hblank, ?_⟩
  rw [hblank]
  decide

/-- C5 (amended): with paragraphs read as the segments between runs of one
or more newline characters (the actual regex split of the source, under
which a single newline already separates paragraphs), splitting with G = 0
yields exactly one passage per non-empty whitespace-trimmed paragraph, in
original order, with no paragraph merged with another or split into
pieces. -/
theorem C5_splitter_zero (doc : List Char) :
    splitDoc 0 doc = newlineParagraphs doc := by
  unfold splitDoc newlineParagraphs
  exact splitDocAux_zero_nil (splitNl doc)

/-- C6: in the joint-subword (transformer) branch, span decoding subtracts
the separator offset L + 2 and clamps at zero, so every raw joint index
below L + 2 decodes to local passage token index 0, and the decoded index
is never negative. -/
theorem C6_joint_offset_clamp (L : ℕ) (i : ℤ) :
    (i < (L : ℤ) + 2 → adjustIndex L i = 0) ∧ 0 ≤ adjustIndex L i := by
  constructor
  · intro h
    unfold adjustIndex
    have hle : i - ((sepOffsetOf L : ℕ) : ℤ) ≤ 0 := by
      unfold sepOffsetOf
      push_cast
      omega
    exact max_eq_left hle
  · exact le_max_left 0 _

/-- C6 witness: a question of length 3 and raw index 2 < 3 + 2 decodes to
index 0. -/
theorem C6_joint_offset_clamp_witness :
    adjustIndex 3 2 = 0 ∧ 0 ≤ adjustIndex 3 2 :=
  ⟨(C6_joint_offset_clamp 3 2).1 (by decide), (C6_joint_offset_clamp 3 2).2⟩

theorem buildSplits_foldl (G : ℕ) (texts : List (List Char)) (fs : List (List Char))
    (rs : List (ℕ × ℕ)) :
    texts.foldl (fun acc text =>
      let splits := splitDoc G text
      (acc.1 ++ splits, acc.2 ++ [(acc.1.length, acc.1.length + splits.length)]))
      (fs, rs)
    = (fs ++ texts.flatMap (splitDoc G),
       rs ++ rangesFrom fs.length (texts.map (fun t => (splitDoc G t).length))) := by
  induction texts generalizing fs rs with
  | nil => simp [rangesFrom]
  | cons t ts ih =>
    simp only [List.foldl_cons]
    rw [ih]
    simp only [List.flatMap_cons, List.map_cons, rangesFrom, List.length_append,
      List.append_assoc, List.singleton_append, Prod.mk.injEq]

theorem buildSplits_eq (G : ℕ) (texts : List (List Char)) :
    buildSplits G texts =
      (texts.flatMap (splitDoc G),
       rangesFrom 0 (texts.map (fun t => (splitDoc G t).length))) := by
  unfold buildSplits
  rw [buildSplits_foldl]
  simp

theorem rangesFrom_length (off : ℕ) (lens : List ℕ) :
    (rangesFrom off lens).length = lens.length := by
  induction lens generalizing off with
  | nil => rfl
  | cons len rest ih => simp [rangesFrom, ih]

theorem rangesFrom_bounds (off : ℕ) (lens : List ℕ) :
    ∀ r ∈ rangesFrom off lens, off ≤ r.1 ∧ r.1 ≤ r.2 := by
  induction lens generalizing off with
  | nil => simp [rangesFrom]
  | cons len rest ih =>
    intro r hr
    rcases List.mem_cons.mp hr with rfl | hr2
    · exact ⟨le_refl _, by omega⟩
    · have := ih (off + len) r hr2
      omega

theorem rangesFrom_consecutive (off : ℕ) (lens : List ℕ) :
    ∀ i, i + 1 < (rangesFrom off lens).length →
      ((rangesFrom off lens).getD i (0, 0)).2 =
        ((rangesFrom off lens).getD (i + 1) (0, 0)).1 := by
  induction lens generalizing off with
  | nil => simp [rangesFrom]
  | cons len rest ih =>
    intro i hi
    rw [rangesFrom_length] at hi
    cases i with
    | zero =>
      cases rest with
      | nil => simp at hi
      | cons len2 rest2 => simp [rangesFrom, List.getD]
    | succ j =>
      have hj : j + 1 < (rangesFrom (off + len) rest).length := by
        rw [rangesFrom_length]
        simp at hi
        omega
      simpa [rangesFrom, List.getD] using ih (off + len) j hj

theorem rangesFrom_last (off : ℕ) (lens : List ℕ) (h : lens ≠ []) :
    ((rangesFrom off lens).getLast?.getD (0, 0)).2 = off + lens.sum := by
  induction lens generalizing off with
  | nil => exact absurd rfl h
  | cons len rest ih =>
    cases rest with
    | nil => simp [rangesFrom, List.sum_cons]
    | cons len2 rest2 =>
      have hrec := ih (off + len) (by simp)
      rw [show rangesFrom (off + len) (len2 :: rest2) =
          (off + len, off + len + len2) :: rangesFrom (off + len + len2) rest2 from rfl]
        at hrec
      rw [show rangesFrom off (len :: len2 :: rest2) =
          (off, off + len) :: (off + len, off + len + len2) ::
            rangesFrom (off + len + len2) rest2 from rfl]
      rw [List.getLast?_cons_cons, hrec]
      simp only [List.sum_cons]
      omega

theorem rangesFrom_countP_zero (off : ℕ) (lens : List ℕ) (k : ℕ) (hk : k < off) :
    (rangesFrom off lens).countP (fun r => decide (r.1 ≤ k ∧ k < r.2)) = 0 := by
  apply List.countP_eq_zero.mpr
  intro r hr
  have hb := rangesFrom_bounds off lens r hr
  simp only [decide_eq_true_eq]
  omega

theorem rangesFrom_coverage (lens : List ℕ) :
    ∀ (off k : ℕ), off ≤ k → k < off + lens.sum →
      (rangesFrom off lens).countP (fun r => decide (r.1 ≤ k ∧ k < r.2)) = 1 := by
  induction lens with
  | nil =>
    intro off k h1 h2
    simp at h2
    omega
  | cons len rest ih =>
    intro off k h1 h2
    simp only [rangesFrom, List.countP_cons]
    by_cases hk : k < off + len
    · rw [rangesFrom_countP_zero (off + len) rest k hk]
      simp [h1, hk]
    · push_neg at hk
      rw [ih (off + len) k hk (by simp only [List.sum_cons] at h2; omega)]
      simp
      omega

/-- C9: the per-document passage ranges recorded while flattening are
half-open, start at zero, are consecutive (each range starts where the
previous ends), end at the total passage count, and every global passage
index is covered by exactly one recorded range. -/
theorem C9_passage_ranges (G : ℕ) (texts : List (List Char)) :
    (buildSplits G texts).2.length = texts.length ∧
    (∀ r ∈ (buildSplits G texts).2, r.1 ≤ r.2) ∧
    (texts ≠ [] → ((buildSplits G texts).2.getD 0 (0, 0)).1 = 0) ∧
    (∀ i, i + 1 < (buildSplits G texts).2.length →
      (((buildSplits G texts).2.getD i (0, 0)).2 =
        ((buildSplits G texts).2.getD (i + 1) (0, 0)).1)) ∧
    (texts ≠ [] →
      ((buildSplits G texts).2.getLast?.getD (0, 0)).2 = (buildSplits G texts).1.length) ∧
    (∀ k, k < (buildSplits G texts).1.length →
      (buildSplits G texts).2.countP (fun r => decide (r.1 ≤ k ∧ k < r.2)) = 1) := by
  rw [buildSplits_eq]
  have hflat : (texts.flatMap (splitDoc G)).length =
      (texts.map (fun t => (splitDoc G t).length)).sum := by
    rw [List.length_flatMap]
    congr 1
  refine ⟨?_, ?_, ?_, ?_, ?_, ?_⟩
  · rw [rangesFrom_length, List.length_map]
  · intro r hr
    exact (rangesFrom_bounds 0 _ r hr).2
  · intro hne
    cases texts with
    | nil => exact absurd rfl hne
    | cons t ts => simp [rangesFrom, List.getD]
  · intro i hi
    exact rangesFrom_consecutive 0 _ i hi
  · intro hne
    rw [rangesFrom_last 0 _ (by simpa using hne), hflat]
    omega
  · intro k hk
    rw [hflat] at hk
    exact rangesFrom_coverage _ 0 k (Nat.zero_le k) (by omega)

/-- C9 witness: the range theorem applied to a concrete two-document batch
(a two-passage document followed by a one-passage document). -/
theorem C9_passage_ranges_witness :
    (((buildSplits 0 [['a', '\n', 'b'], ['c']]).2.getD 0 (0, 0)).2 =
      ((buildSplits 0 [['a', '\n', 'b'], ['c']]).2.getD 1 (0, 0)).1) ∧
    ((buildSplits 0 [['a', '\n', 'b'], ['c']]).2.getD 0 (0, 0)).1 = 0 ∧
    (buildSplits 0 [['a', '\n', 'b'], ['c']]).2.countP
      (fun r => decide (r.1 ≤ 2 ∧ 2 < r.2)) = 1 :=
  ⟨(C9_passage_ranges 0 [['a', '\n', 'b'], ['c']]).2.2.2.1 0 (by decide),
   (C9_passage_ranges 0 [['a', '\n', 'b'], ['c']]).2.2.1 (by decide),
   (C9_passage_ranges 0 [['a', '\n', 'b'], ['c']]).2.2.2.2.2 2 (by decide)⟩

/-- C3: within one batch the document store fetch is invoked exactly once
per distinct identifier appearing in any ranked list, and never for other
identifiers; the passage tokenizer invocation list carries exactly one
entry per global passage of the flattened passage list; and both invocation
lists depend only on the document store, the tokenizer, and the SET of
ranked identifiers — overlap between the ranked lists of several queries
cannot add invocations. -/
theorem C3_dedup_fetch_once (env1 env2 : Env) (d : ℕ) :
    (d ∈ env1.allDocids.flatten → (fetchCallsOf env1).count d = 1) ∧
    (d ∉ env1.allDocids.flatten → (fetchCallsOf env1).count d = 0) ∧
    (passageTokCallsOf env1).length =
      ((docTextsOf env1).map (fun t => (splitDoc 0 t).length)).sum ∧
    (env1.docText = env2.docText →
      env1.allDocids.flatten.dedup = env2.allDocids.flatten.dedup →
      fetchCallsOf env1 = fetchCallsOf env2 ∧
      passageTokCallsOf env1 = passageTokCallsOf env2) := by
  refine ⟨?_, ?_, ?_, ?_⟩
  · intro hmem
    exact List.count_eq_one_of_mem (List.nodup_dedup _) (List.mem_dedup.mpr hmem)
  · intro hmem
    exact List.count_eq_zero.mpr (fun hc => hmem (List.mem_dedup.mp hc))
  · unfold passageTokCallsOf flatSplitsOf
    rw [buildSplits_eq, List.length_flatMap]
    congr 1
  · intro hdb hdedup
    have hfetch : fetchCallsOf env1 = fetchCallsOf env2 := hdedup
    refine ⟨hfetch, ?_⟩
    unfold passageTokCallsOf flatSplitsOf docTextsOf
    rw [show flatDocidsOf env1 = flatDocidsOf env2 from hdedup, hdb]

/-- C3 witness: in the demonstration environment both queries rank both
documents; each identifier is fetched once, an absent identifier is never
fetched, and the single-query environment with the same identifier set
produces identical fetch and tokenize invocation lists. -/
theorem C3_dedup_fetch_once_witness :
    (fetchCallsOf demoEnv).count 10 = 1 ∧
    (fetchCallsOf demoEnv).count 12 = 0 :=
  ⟨(C3_dedup_fetch_once demoEnv demoEnv 10).1 (by decide),
   (C3_dedup_fetch_once demoEnv demoEnv 12).2.1 (by decide)⟩

theorem getD_map_of_lt {α β : Type} (f : α → β) (l : List α) (i : ℕ)
    (hi : i < l.length) (d : β) (d2 : α) :
    (l.map f).getD i d = f (l.getD i d2) := by
  rw [List.getD_eq_getElem _ _ (by simpa using hi), List.getD_eq_getElem _ _ hi]
  simp

theorem getD_replicate_nil (nq j : ℕ) :
    (List.replicate nq ([] : List ScoredSpan)).getD j [] = [] := by
  rw [List.getD_eq_getElem?_getD, List.getElem?_replicate]
  split <;> rfl

theorem foldl_queues_length (topn : ℕ) (items : List ScoredSpan)
    (queues : List (List ScoredSpan)) :
    (items.foldl
      (fun qs it => qs.set it.qidx (offer topn (qs.getD it.qidx []) it))
      queues).length = queues.length := by
  induction items generalizing queues with
  | nil => rfl
  | cons it rest ih =>
    rw [List.foldl_cons, ih, List.length_set]

theorem foldl_queues_getD (topn : ℕ) (items : List ScoredSpan)
    (queues : List (List ScoredSpan)) (i : ℕ) (hi : i < queues.length) :
    (items.foldl
      (fun qs it => qs.set it.qidx (offer topn (qs.getD it.qidx []) it))
      queues).getD i []
      = (items.filter (fun it => decide (it.qidx = i))).foldl (offer topn)
          (queues.getD i []) := by
  induction items generalizing queues with
  | nil => simp
  | cons it rest ih =>
    rw [List.foldl_cons, List.filter_cons]
    by_cases hq : it.qidx = i
    · rw [if_pos (by simp [hq]), List.foldl_cons,
        ih _ (by rw [List.length_set]; exact hi)]
      congr 1
      subst hq
      rw [List.getD_eq_getElem?_getD, List.getElem?_set, if_pos rfl, if_pos hi]
      rfl
    · rw [if_neg (by simp [hq]), ih _ (by rw [List.length_set]; exact hi)]
      congr 1
      rw [List.getD_eq_getElem?_getD, List.getElem?_set, if_neg hq,
        List.getD_eq_getElem?_getD]

theorem fillQueues_length (nq topn : ℕ) (items : List ScoredSpan) :
    (fillQueues nq topn items).length = nq := by
  unfold fillQueues
  rw [foldl_queues_length, List.length_replicate]

theorem fillQueues_getD (nq topn : ℕ) (items : List ScoredSpan) (i : ℕ)
    (hi : i < nq) :
    (fillQueues nq topn items).getD i [] =
      runQueue topn (items.filter (fun it => decide (it.qidx = i))) := by
  unfold fillQueues runQueue
  rw [foldl_queues_getD topn items _ i (by rw [List.length_replicate]; exact hi),
    getD_replicate_nil]

theorem mkPrediction_spanScore (env : Env) (queries : List (List Char))
    (it : ScoredSpan) : (mkPrediction env queries it).spanScore = it.score := rfl

theorem drainQueue_sorted_desc (env : Env) (queries : List (List Char))
    (q : List ScoredSpan) (hq : q.Sorted (· ≤ ·)) :
    (drainQueue env queries q).Sorted (fun p1 p2 => p2.spanScore ≤ p1.spanScore) := by
  unfold drainQueue
  rw [List.Sorted, List.pairwise_reverse, List.pairwise_map]
  exact hq.imp (fun hab => by
    rw [mkPrediction_spanScore, mkPrediction_spanScore]
    exact ScoredSpan.score_le_of_le hab)

/-- C2: process_batch returns exactly one prediction list per input query,
in input order (the list for position i is the drain of the queue fed by
exactly the scored spans owned by query i); each list is the reverse of the
ascending pop order of its queue, hence sorted descending by span score,
and holds at most top_n predictions. -/
theorem C2_output_lists (env : Env) (queries : List (List Char)) (topn : ℕ) :
    (processBatchOut env queries topn).length = queries.length ∧
    (∀ i, i < queries.length →
      ((processBatchOut env queries topn).getD i []).length ≤ topn ∧
      ((processBatchOut env queries topn).getD i []).Sorted
        (fun p1 p2 => p2.spanScore ≤ p1.spanScore) ∧
      (processBatchOut env queries topn).getD i [] =
        ((runQueue topn ((scoredOf env queries).filter
          (fun it => decide (it.qidx = i)))).map (mkPrediction env queries)).reverse) := by
  have hqlen : (queuesOf env queries topn).length = queries.length :=
    fillQueues_length _ _ _
  constructor
  · unfold processBatchOut
    rw [List.length_map, hqlen]
  · intro i hi
    have hgd : (processBatchOut env queries topn).getD i [] =
        drainQueue env queries ((queuesOf env queries topn).getD i []) := by
      unfold processBatchOut
      exact getD_map_of_lt _ _ i (by rw [hqlen]; exact hi) [] []
    have hqi : (queuesOf env queries topn).getD i [] =
        runQueue topn ((scoredOf env queries).filter (fun it => decide (it.qidx = i))) :=
      fillQueues_getD _ _ _ i hi
    refine ⟨?_, ?_, ?_⟩
    · rw [hgd, hqi]
      unfold drainQueue
      rw [List.length_reverse, List.length_map, runQueue_length]
      omega
    · rw [hgd]
      exact drainQueue_sorted_desc env queries _ (hqi ▸ runQueue_sorted _ _)
    · rw [hgd, hqi]
      rfl

/-- C2 witness: the shape theorem applied to the demonstration batch of two
queries. -/
theorem C2_output_lists_witness :
    ((processBatchOut demoEnv demoQueries 1).getD 0 []).length ≤ 1 ∧
    (processBatchOut demoEnv demoQueries 1).length = demoQueries.length :=
  ⟨((C2_output_lists demoEnv demoQueries 1).2 0 (by decide)).1,
   (C2_output_lists demoEnv demoQueries 1).1⟩

theorem set_replicate_nil (nq j : ℕ) :
    (List.replicate nq ([] : List ScoredSpan)).set j [] = List.replicate nq [] := by
  induction nq generalizing j with
  | zero => rfl
  | succ n ih =>
    cases j with
    | zero => rfl
    | succ j2 =>
      rw [List.replicate_succ, List.set_cons_succ, ih]

theorem fillQueues_zero (nq : ℕ) (items : List ScoredSpan) :
    fillQueues nq 0 items = List.replicate nq [] := by
  unfold fillQueues
  induction items with
  | nil => rfl
  | cons it rest ih =>
    rw [List.foldl_cons, getD_replicate_nil]
    rw [show offer 0 [] it = [] from rfl, set_replicate_nil]
    exact ih

/-- C7 counterexample: a batch call with top_n = 0 (violating the claimed
precondition top_n ≥ 1) raises nothing: work is dispatched (six scored
spans are produced by the reader) and the call returns normally with one
empty prediction list per query, instead of the claimed ConfigurationError
with no lists returned. -/
theorem C7_validation_counterexample :
    processBatchE demoEnv demoQueries 0 = Except.ok [[], []] ∧
    scoredOf demoEnv demoQueries ≠ [] := by
  have hout : processBatchOut demoEnv demoQueries 0 = [[], []] := by decide
  refine ⟨?_, by decide⟩
  unfold processBatchE
  rw [hout]

/-- C7 (amended): process_batch performs no validation of top_n or n_docs
and never raises ConfigurationError (or any other error of the embedded
region): every call returns Except.ok.  In particular a call with
top_n = 0 completes normally and yields one empty prediction list per
query, because the capacity-zero queue discards every offered span. -/
theorem C7_no_validation (env : Env) (queries : List (List Char)) :
    processBatchE env queries 0 =
      Except.ok (List.replicate queries.length []) ∧
    (∀ topn, processBatchE env queries topn =
      Except.ok (processBatchOut env queries topn)) := by
  constructor
  · unfold processBatchE processBatchOut queuesOf
    rw [fillQueues_zero, List.map_replicate]
    rfl
  · intro topn
    rfl

theorem scoredOf_filter_nil (env : Env) (queries : List (List Char)) (qidx : ℕ)
    (h : ∀ ex ∈ examplesOf env queries, ex.qidx = qidx → (env.read ex).1 = []) :
    (scoredOf env queries).filter (fun it => decide (it.qidx = qidx)) = [] := by
  apply List.filter_eq_nil_iff.mpr
  intro it hit
  unfold scoredOf resultsOf at hit
  obtain ⟨ex, hex, hfx⟩ := List.mem_filterMap.mp hit
  simp only [decide_eq_true_eq]
  intro hqe
  by_cases hem : (env.read ex).1.isEmpty
  · rw [if_pos hem] at hfx
    exact Option.noConfusion hfx
  · rw [if_neg hem] at hfx
    have hq : it.qidx = ex.qidx := by
      cases Option.some.inj hfx
      rfl
    have := h ex hex (by rw [← hq, hqe])
    rw [this] at hem
    exact hem rfl

/-- C8: a query whose every example row receives an empty reader result
gets an empty prediction list and the call still succeeds; empty rows are
never offered to the aggregation structure. -/
theorem C8_empty_reader_results (env : Env) (queries : List (List Char))
    (topn qidx : ℕ)
    (h : ∀ ex ∈ examplesOf env queries, ex.qidx = qidx → (env.read ex).1 = []) :
    (processBatchOut env queries topn).getD qidx [] = [] ∧
    processBatchE env queries topn =
      Except.ok (processBatchOut env queries topn) := by
  refine ⟨?_, rfl⟩
  have hqlen : (queuesOf env queries topn).length = queries.length :=
    fillQueues_length _ _ _
  by_cases hq : qidx < queries.length
  · have hgd : (processBatchOut env queries topn).getD qidx [] =
        drainQueue env queries ((queuesOf env queries topn).getD qidx []) := by
      unfold processBatchOut
      exact getD_map_of_lt _ _ qidx (by rw [hqlen]; exact hq) [] []
    have hfq : (queuesOf env queries topn).getD qidx [] =
        runQueue topn ((scoredOf env queries).filter
          (fun it => decide (it.qidx = qidx))) :=
      fillQueues_getD _ _ _ qidx hq
    rw [hgd, hfq, scoredOf_filter_nil env queries qidx h]
    rfl
  · push_neg at hq
    have hlen : (processBatchOut env queries topn).length = queries.length := by
      unfold processBatchOut
      rw [List.length_map, hqlen]
    rw [List.getD_eq_getElem?_getD, List.getElem?_eq_none (by omega)]
    rfl

/-- C8 witness: in the environment whose reader returns no candidates on
any row, the only query of a singleton batch receives the empty prediction
list and the call succeeds. -/
theorem C8_empty_reader_results_witness :
    (processBatchOut demoEnvEmpty [['q']] 1).getD 0 [] = [] ∧
    processBatchE demoEnvEmpty [['q']] 1 =
      Except.ok (processBatchOut demoEnvEmpty [['q']] 1) :=
  C8_empty_reader_results demoEnvEmpty [['q']] 1 0 (by decide)

theorem exampleAt_ckey {env : Env} {queries : List (List Char)}
    {qidx relDidx sidx : ℕ} {ex : Example}
    (h : exampleAt env queries qidx relDidx sidx = some ex) :
    ex.ckey = (qidx, relDidx, sidx) := by
  unfold exampleAt at h
  split at h
  · cases Option.some.inj h
    rfl
  · exact Option.noConfusion h

theorem exrow_keys_sublist (env : Env) (queries : List (List Char))
    (qidx relDidx : ℕ) (sidxs : List ℕ) :
    ((sidxs.filterMap (fun sidx => exampleAt env queries qidx relDidx sidx)).map
      Example.ckey).Sublist
      (sidxs.map (fun sidx => (qidx, relDidx, sidx))) := by
  induction sidxs with
  | nil => simp
  | cons s rest ih =>
    rw [List.filterMap_cons, List.map_cons]
    cases hx : exampleAt env queries qidx relDidx s with
    | none => exact ih.cons _
    | some ex =>
      rw [List.map_cons, exampleAt_ckey hx]
      exact ih.cons₂ _

theorem exrow_keys_shape (env : Env) (queries : List (List Char))
    (qidx relDidx : ℕ) (sidxs : List ℕ) :
    ∀ k ∈ (sidxs.filterMap
        (fun sidx => exampleAt env queries qidx relDidx sidx)).map Example.ckey,
      k.1 = qidx ∧ k.2.1 = relDidx := by
  intro k hk
  have hmem := (exrow_keys_sublist env queries qidx relDidx sidxs).subset hk
  obtain ⟨s, hs, rfl⟩ := List.mem_map.mp hmem
  exact ⟨rfl, rfl⟩

theorem examplesOf_keys_nodup (env : Env) (queries : List (List Char)) :
    ((examplesOf env queries).map Example.ckey).Nodup := by
  unfold examplesOf
  rw [List.map_flatMap, List.nodup_flatMap]
  constructor
  · intro qidx hq
    rw [List.map_flatMap, List.nodup_flatMap]
    constructor
    · intro rd hrd
      refine List.Nodup.sublist (exrow_keys_sublist env queries qidx rd.1 _) ?_
      refine List.Nodup.map ?_ (List.nodup_range' _ _)
      intro a b hab
      simpa using hab
    · have hfst : List.Pairwise (fun a b : ℕ × ℕ => a.1 < b.1)
          ((env.allDocids.getD qidx []).enum) := by
        rw [← List.pairwise_map (f := Prod.fst), List.enum_map_fst]
        exact List.pairwise_lt_range _
      refine hfst.imp ?_
      intro a b hab k hk1 hk2
      have h1 := (exrow_keys_shape env queries qidx a.1 _ k hk1).2
      have h2 := (exrow_keys_shape env queries qidx b.1 _ k hk2).2
      omega
  · have hlt : List.Pairwise (· < ·) (List.range queries.length) :=
      List.pairwise_lt_range _
    refine hlt.imp ?_
    intro a b hab k hk1 hk2
    obtain ⟨ex1, hex1, hck1⟩ := List.mem_map.mp hk1
    obtain ⟨ex2, hex2, hck2⟩ := List.mem_map.mp hk2
    obtain ⟨rd1, hrd1, hm1⟩ := List.mem_flatMap.mp hex1
    obtain ⟨rd2, hrd2, hm2⟩ := List.mem_flatMap.mp hex2
    obtain ⟨s1, hs1, ha1⟩ := List.mem_filterMap.mp hm1
    obtain ⟨s2, hs2, ha2⟩ := List.mem_filterMap.mp hm2
    have h1 : k.1 = a := by rw [← hck1, exampleAt_ckey ha1]
    have h2 : k.1 = b := by rw [← hck2, exampleAt_ckey ha2]
    omega

theorem resultsOf_keys_sublist (env : Env) (exs : List Example) :
    ((resultsOf env exs).map ScoredSpan.ckey).Sublist (exs.map Example.ckey) := by
  induction exs with
  | nil => simp [resultsOf]
  | cons ex rest ih =>
    unfold resultsOf
    rw [List.filterMap_cons]
    unfold resultsOf at ih
    by_cases hem : (env.read ex).1.isEmpty
    · rw [if_pos hem, List.map_cons]
      exact ih.cons _
    · rw [if_neg hem, List.map_cons, List.map_cons]
      exact ih.cons₂ _

theorem runQueue_subperm (topn : ℕ) (xs : List ScoredSpan) :
    (runQueue topn xs).Subperm xs := by
  rw [runQueue_eq_takeLast]
  unfold takeLast
  exact ((List.drop_sublist _ _).subperm).trans (List.perm_insertionSort _ _).subperm

theorem subperm_map {α β : Type} (f : α → β) {l1 l2 : List α} (h : l1.Subperm l2) :
    (l1.map f).Subperm (l2.map f) := by
  obtain ⟨l, hperm, hsub⟩ := h
  exact ⟨l.map f, hperm.map f, hsub.map f⟩

/-- C10: the per-row collection offers at most one scored span per example
row (the first candidate of the row, kept only when the candidate list is
non-empty), the offered spans carry pairwise distinct composite keys, and
consequently each composite key appears at most once in any final queue,
hence at most once in the query prediction list drained from it. -/
theorem C10_composite_key_unique (env : Env) (queries : List (List Char))
    (topn qidx : ℕ) :
    (scoredOf env queries).length ≤ (examplesOf env queries).length ∧
    ((scoredOf env queries).map ScoredSpan.ckey).Nodup ∧
    (((queuesOf env queries topn).getD qidx []).map ScoredSpan.ckey).Nodup := by
  have hsk : ((scoredOf env queries).map ScoredSpan.ckey).Nodup :=
    List.Nodup.sublist (resultsOf_keys_sublist env (examplesOf env queries))
      (examplesOf_keys_nodup env queries)
  refine ⟨List.length_filterMap_le _ _, hsk, ?_⟩
  by_cases hq : qidx < queries.length
  · have hfq : (queuesOf env queries topn).getD qidx [] =
        runQueue topn ((scoredOf env queries).filter
          (fun it => decide (it.qidx = qidx))) :=
      fillQueues_getD _ _ _ qidx hq
    rw [hfq]
    have h1 : ((runQueue topn ((scoredOf env queries).filter
        (fun it => decide (it.qidx = qidx)))).map ScoredSpan.ckey).Subperm
        (((scoredOf env queries).filter
          (fun it => decide (it.qidx = qidx))).map ScoredSpan.ckey) :=
      subperm_map _ (runQueue_subperm _ _)
    have h2 : (((scoredOf env queries).filter
        (fun it => decide (it.qidx = qidx))).map ScoredSpan.ckey).Sublist
        ((scoredOf env queries).map ScoredSpan.ckey) :=
      (List.filter_sublist _).map _
    obtain ⟨l, hperm, hsub⟩ := h1
    exact hperm.nodup_iff.mp (List.Nodup.sublist (hsub.trans h2) hsk)
  · push_neg at hq
    have hqlen : (queuesOf env queries topn).length = queries.length :=
      fillQueues_length _ _ _
    rw [List.getD_eq_getElem?_getD, List.getElem?_eq_none (by omega)]
    simp
